import Mathlib

/-!
Verification of the signature-to-CLI mapping engine of `bin/parsers.py`
(`DynamicArgumentParser`): signature classification, argument-option
generation, the argument-parse step applied to the generated option set,
and the invocation resolver in `parse_args`.

The embedding is a direct translation of `DynamicArgumentParser.__init__`,
`generate_arg_options` and `parse_args`.  The behaviour of the external
argument-parse step (Python's `argparse`, applied to exactly the option
set this program declares) is modelled by `posOnlyEntries`, `flagEntry`
and `buildNamespace`.
-/

namespace Sourcepy

/-- Parameter kinds used by the program (`POSITIONAL_ONLY`,
`POSITIONAL_OR_KEYWORD`, `KEYWORD_ONLY`). -/
inductive Kind where
  | positionalOnly
  | positionalOrKeyword
  | keywordOnly
deriving DecidableEq, Repr

/-- Runtime values flowing through the parser: raw strings, coerced values,
booleans, and Python's `None`. -/
inductive Value where
  | str (s : String)
  | int (n : Int)
  | bool (b : Bool)
  | pynone
deriving DecidableEq, Repr

/-- Modelled from the spec: the external Type Coercion service
(`converters.typecast_factory`, whose source is not part of the core) returns,
per parameter, either a coercion function `string → TypedValue` or no
coercion.  Two representative coercions stand in for the service; the
properties below depend only on whether a coercion is applied, never on
which one. -/
inductive Typecast where
  | toInt
  | toBool
deriving DecidableEq, Repr

/-- Application of a coercion function to a raw command-line string.
`Option.none` is a `CoercionFailure`: per the service's contract, a string
the coercion cannot parse fails the whole CLI parse.  The integer coercion
accepts exactly strings of decimal digits. -/
def Typecast.apply : Typecast → String → Option Value
  | .toInt, s =>
    if s.data ≠ [] ∧ s.data.all Char.isDigit then
      some (.int (s.data.foldl (fun n c => 10 * n + ((c.toNat : Int) - 48)) 0))
    else
      Option.none
  | .toBool, s =>
    if s = "true" then some (.bool true)
    else if s = "false" then some (.bool false)
    else Option.none

/-- One callable parameter, as read off `inspect.signature(fn).parameters`:
its name, kind, whether its annotation is `bool`, its default
(`Option.none` models `inspect._empty`), and the coercion the Type
Coercion service resolves for it. -/
structure Param where
  name : String
  kind : Kind
  annotationIsBool : Bool
  default : Option Value
  typecast : Option Typecast
deriving DecidableEq, Repr

/-- `param.annotation == bool or isinstance(param.default, bool)`. -/
def Param.isBooleanLike (p : Param) : Bool :=
  p.annotationIsBool ||
    (match p.default with
     | some (.bool _) => true
     | _ => false)

/-- The value a raw token contributes for a parameter: the parameter's
resolved coercion function applied to the token (which may fail, a
`CoercionFailure`), or the raw string when no coercion applies. -/
def Param.applyCoercion (p : Param) (t : String) : Option Value :=
  match p.typecast with
  | some tc => tc.apply t
  | Option.none => some (.str t)

/-- Coercion of a token list against a parameter list, position by
position: succeeds with the list of coerced values exactly when every
parameter's coercion accepts its token (and enough tokens are present). -/
def coerceAll : List Param → List String → Option (List Value)
  | [], _ => some []
  | _ :: _, [] => Option.none
  | p :: ps, t :: ts =>
    match p.applyCoercion t with
    | Option.none => Option.none
    | some v => (coerceAll ps ts).map (fun vs => v :: vs)

/-- The four buckets `params_meta` is populated with in
`DynamicArgumentParser.__init__`: one list per parameter kind plus the
`REQUIRED` list. -/
structure Classification where
  posOnly : List Param
  posOrKw : List Param
  kwOnly : List Param
  required : List Param
deriving Repr

/-- One iteration of the classification loop: append the parameter to its
kind's bucket, and to the required bucket when it has no default. -/
def classifyStep (c : Classification) (p : Param) : Classification :=
  let c1 :=
    match p.kind with
    | .positionalOnly => { c with posOnly := c.posOnly ++ [p] }
    | .positionalOrKeyword => { c with posOrKw := c.posOrKw ++ [p] }
    | .keywordOnly => { c with kwOnly := c.kwOnly ++ [p] }
  if p.default.isNone then { c1 with required := c1.required ++ [p] } else c1

/-- The classification loop of `DynamicArgumentParser.__init__`: a single
left-to-right pass over the signature's parameters. -/
def classify (ps : List Param) : Classification :=
  ps.foldl classifyStep ⟨[], [], [], []⟩

/-- The `action` choices `generate_arg_options` can make: `store_true` for
boolean-like positional-only parameters, `argparse.BooleanOptionalAction`
for the other boolean-like kinds. -/
inductive ArgAction where
  | storeTrue
  | booleanOptional
deriving DecidableEq, Repr

/-- The parts of the options dict built by `generate_arg_options` that the
parse step consumes: the chosen action (if any), the registered `type`
coercion (if any), and whether `options['default']` was set to the
`argparse.SUPPRESS` sentinel. -/
structure ArgOptions where
  action : Option ArgAction
  type : Option Typecast
  suppressDefault : Bool
deriving DecidableEq, Repr

/-- Direct translation of `DynamicArgumentParser.generate_arg_options`:
boolean-like parameters get `store_true` (positional-only) or
`BooleanOptionalAction` (otherwise) and no `type`; other parameters get
their resolved coercion as `type`; `default` is set to `SUPPRESS` exactly
when the action is not `BooleanOptionalAction`. -/
def generate_arg_options (p : Param) : ArgOptions :=
  let action : Option ArgAction :=
    if p.annotationIsBool ||
        (match p.default with
         | some (.bool _) => true
         | _ => false) then
      if p.kind = .positionalOnly then some .storeTrue else some .booleanOptional
    else
      Option.none
  let type : Option Typecast :=
    if action.isNone then p.typecast else Option.none
  { action := action
    type := type
    suppressDefault := action ≠ some .booleanOptional }

/-- How one named option was supplied on the command line: not at all, as
its explicit-true form (`--name`), as its explicit-false form
(`--no-name`), or with a string value (`--name value`). -/
inductive FlagInput where
  | absent
  | trueForm
  | falseForm
  | value (s : String)
deriving DecidableEq, Repr

/-- The value a named tri-state toggle (`BooleanOptionalAction`) produces
for each way of supplying it: explicit-true, explicit-false, or the
parse-time default `None` when unset. -/
def toggleValue : FlagInput → Value
  | .trueForm => .bool true
  | .falseForm => .bool false
  | _ => .pynone

/-- First-match lookup in an association list of flag inputs; names not
mentioned are absent. -/
def flagGet : List (String × FlagInput) → String → FlagInput
  | [], _ => .absent
  | (k, f) :: rest, n => if k = n then f else flagGet rest n

/-- The command line, already split into the named-option occurrences and
the ordered list of unnamed positional tokens. -/
structure RawInput where
  flags : List (String × FlagInput)
  positionals : List String

/-- The flag input supplied for a given option name. -/
def RawInput.flagOf (i : RawInput) (n : String) : FlagInput :=
  flagGet i.flags n

/-- First-match lookup in an association list of values (Python dict
access). -/
def dictGet : List (String × Value) → String → Option Value
  | [], _ => Option.none
  | (k, v) :: rest, n => if k = n then some v else dictGet rest n

/-- The namespace `vars(super().parse_args(...))` is read through: the
per-name entries, with the `_positional_or_kw` catch-all list held
separately. -/
structure CmdArgs where
  vals : List (String × Value)
  catchAll : List String
deriving Repr

/-- `cmd_args[name]` lookup. -/
def CmdArgs.lookup (ns : CmdArgs) (n : String) : Option Value :=
  dictGet ns.vals n

/-- The value a supplied token yields through an option's registered
`type` coercion (the raw string when none is registered); `Option.none` is
a `CoercionFailure`, which fails the whole CLI parse. -/
def optionValue (o : ArgOptions) (t : String) : Option Value :=
  match o.type with
  | some tc => tc.apply t
  | Option.none => some (.str t)

/-- Modelled argument-parse step for the positional slots the program
declares, in declaration order: a positional declared with
`action='store_true'` consumes no token and always fires (binding `True`),
any other positional consumes exactly one token (coerced through its
registered `type`, the raw string otherwise; a coercion failure fails the
whole parse) and is a parse error when no token is left.  Returns the
entries together with the leftover tokens. -/
def posOnlyEntries : List Param → List String →
    Option (List (String × Value) × List String)
  | [], toks => some ([], toks)
  | p :: rest, toks =>
    match (generate_arg_options p).action with
    | some .storeTrue =>
      (posOnlyEntries rest toks).map (fun x => ((p.name, .bool true) :: x.1, x.2))
    | _ =>
      match toks with
      | [] => Option.none
      | t :: ts =>
        match optionValue (generate_arg_options p) t with
        | Option.none => Option.none
        | some v =>
          (posOnlyEntries rest ts).map (fun x => ((p.name, v) :: x.1, x.2))

/-- Modelled argument-parse step for one named option generated by the
program: a `BooleanOptionalAction` option yields `True`/`False` for its
explicit forms, takes no value, and (having no `SUPPRESS` default) is
present as `None` when omitted; a plain option is absent from the
namespace when omitted (its default is `SUPPRESS`), and its supplied value
goes through its registered `type` coercion, whose failure fails the whole
parse.  `Option.none` is a parse error; `some Option.none` means no
namespace entry. -/
def flagEntry (o : ArgOptions) (fi : FlagInput) : Option (Option Value) :=
  match o.action with
  | some .booleanOptional =>
    match fi with
    | .absent => some (some .pynone)
    | .trueForm => some (some (.bool true))
    | .falseForm => some (some (.bool false))
    | .value _ => Option.none
  | some .storeTrue => Option.none
  | Option.none =>
    match fi with
    | .absent => some Option.none
    | .value s =>
      match optionValue o s with
      | some v => some (some v)
      | Option.none => Option.none
    | _ => Option.none

/-- Namespace entries contributed by a list of named options, in order. -/
def flagEntries : List Param → RawInput → Option (List (String × Value))
  | [], _ => some []
  | p :: rest, input =>
    match flagEntry (generate_arg_options p) (input.flagOf p.name) with
    | Option.none => Option.none
    | some e =>
      match flagEntries rest input with
      | Option.none => Option.none
      | some es =>
        match e with
        | some v => some ((p.name, v) :: es)
        | Option.none => some es

/-- Modelled argument-parse step over the full option set generated by
`generate_args`: positional-only slots first (greedy, in declaration
order), leftover tokens feed the `_positional_or_kw` catch-all (declared
only when positional-or-keyword parameters exist; otherwise leftover
tokens are an unrecognized-arguments error), and one named option per
positional-or-keyword and keyword-only parameter. -/
def buildNamespace (c : Classification) (input : RawInput) : Option CmdArgs :=
  match posOnlyEntries c.posOnly input.positionals with
  | Option.none => Option.none
  | some pe =>
    match flagEntries c.posOrKw input, flagEntries c.kwOnly input with
    | some pokE, some koE =>
      if c.posOrKw.isEmpty then
        if pe.2.isEmpty then
          some ⟨pe.1 ++ pokE ++ koE, []⟩
        else
          Option.none
      else
        some ⟨pe.1 ++ pokE ++ koE, pe.2⟩
    | _, _ => Option.none

/-- The final `(args, kwargs)` pair returned by
`DynamicArgumentParser.parse_args`. -/
structure Resolved where
  args : List Value
  kwargs : List (String × Value)
deriving Repr, DecidableEq

/-- First loop of `parse_args`: `args.append(cmd_args[param.name])` per
positional-only parameter; a missing key is a `KeyError`. -/
def resolvePosOnly : List Param → CmdArgs → Except String (List Value)
  | [], _ => .ok []
  | p :: rest, ns =>
    match ns.lookup p.name with
    | some v => (resolvePosOnly rest ns).map (fun vs => v :: vs)
    | Option.none => .error ("KeyError: " ++ p.name)

/-- Second loop of `parse_args`, per positional-or-keyword parameter in
declaration order: a present namespace entry is bound into `kwargs`;
otherwise one token is popped off the front of the catch-all list and
bound raw into both `kwargs` and `cmd_args`; an exhausted catch-all list
leaves the parameter unbound. -/
def resolvePoK : List Param → CmdArgs → List (String × Value) →
    CmdArgs × List (String × Value)
  | [], ns, kw => (ns, kw)
  | p :: rest, ns, kw =>
    match ns.lookup p.name with
    | some v => resolvePoK rest ns (kw ++ [(p.name, v)])
    | Option.none =>
      match ns.catchAll with
      | [] => resolvePoK rest ns kw
      | t :: ts =>
        resolvePoK rest ⟨ns.vals ++ [(p.name, .str t)], ts⟩
          (kw ++ [(p.name, .str t)])

/-- Third loop of `parse_args`: bind each keyword-only parameter that has a
namespace entry. -/
def resolveKO : List Param → CmdArgs → List (String × Value) →
    List (String × Value)
  | [], _, kw => kw
  | p :: rest, ns, kw =>
    match ns.lookup p.name with
    | some v => resolveKO rest ns (kw ++ [(p.name, v)])
    | Option.none => resolveKO rest ns kw

/-- The required parameters whose names are not in `cmd_args` after the
binding loops, in `REQUIRED`-bucket order. -/
def missingRequired (required : List Param) (ns : CmdArgs) : List String :=
  (required.filter (fun p => (ns.lookup p.name).isNone)).map Param.name

/-- Final loop of `parse_args`: `self.error(...)` terminates on the first
required parameter missing from `cmd_args`. -/
def checkRequired (required : List Param) (ns : CmdArgs) : Except String Unit :=
  match missingRequired required ns with
  | [] => .ok ()
  | m :: _ => .error ("the following arguments are required: " ++ m)

/-- The body of `DynamicArgumentParser.parse_args` after the namespace has
been produced: the three binding loops over the classification followed by
the required check. -/
def resolveNamespace (c : Classification) (ns : CmdArgs) :
    Except String Resolved :=
  match resolvePosOnly c.posOnly ns with
  | .error e => .error e
  | .ok args =>
    let r := resolvePoK c.posOrKw ns []
    let kw := resolveKO c.kwOnly r.1 r.2
    match checkRequired c.required r.1 with
    | .error e => .error e
    | .ok _ => .ok ⟨args, kw⟩

/-- The whole pipeline for one invocation: classify the signature, run the
argument-parse step over the generated option surface, then resolve.
`Option.none` is a parse-step failure, `Except.error` a resolver
failure. -/
def parse_args (ps : List Param) (input : RawInput) :
    Option (Except String Resolved) :=
  (buildNamespace (classify ps) input).map (resolveNamespace (classify ps))

/-! ### Concrete parameters and signatures used below -/

/-- Parameter `a`: required, non-boolean, positional-only. -/
def paramA : Param := ⟨"a", .positionalOnly, false, Option.none, Option.none⟩

/-- Parameter `b=1`: optional, non-boolean, positional-or-keyword. -/
def paramBdef : Param :=
  ⟨"b", .positionalOrKeyword, false, some (.int 1), Option.none⟩

/-- Parameter `b`: required, non-boolean, positional-or-keyword. -/
def paramBreq : Param :=
  ⟨"b", .positionalOrKeyword, false, Option.none, Option.none⟩

/-- Parameter `c`: required, non-boolean, keyword-only. -/
def paramCreq : Param := ⟨"c", .keywordOnly, false, Option.none, Option.none⟩

/-- Parameter `c: bool`: required, boolean-like, keyword-only. -/
def paramCbool : Param := ⟨"c", .keywordOnly, true, Option.none, Option.none⟩

/-- Parameter `flag: bool`: boolean-like, positional-only. -/
def paramFlag : Param := ⟨"flag", .positionalOnly, true, Option.none, Option.none⟩

/-- Parameter `d: bool`: required, boolean-like, positional-or-keyword. -/
def paramDbool : Param :=
  ⟨"d", .positionalOrKeyword, true, Option.none, Option.none⟩

/-- Parameter `x=0`: optional, non-boolean, positional-or-keyword. -/
def paramX : Param :=
  ⟨"x", .positionalOrKeyword, false, some (.int 0), Option.none⟩

/-- Parameter `y=0`: optional, non-boolean, positional-or-keyword. -/
def paramY : Param :=
  ⟨"y", .positionalOrKeyword, false, some (.int 0), Option.none⟩

/-- Parameter `n: int`: required, positional-only, with the integer
coercion. -/
def paramN : Param := ⟨"n", .positionalOnly, false, Option.none, some .toInt⟩

/-- Parameter `m`: required, positional-only, no coercion. -/
def paramM : Param := ⟨"m", .positionalOnly, false, Option.none, Option.none⟩

/-- The signature `f(a, /, b=1, *, c)` from the spec's testable
properties. -/
def sigABC : List Param := [paramA, paramBdef, paramCreq]

/-- Signature `f(b, *, c)`: two required parameters both of which can be
omitted on the command line. -/
def sigBC : List Param := [paramBreq, paramCreq]

/-- Signature `f(*, c: bool)`. -/
def sigCbool : List Param := [paramCbool]

/-- Signature `f(flag: bool, /)`. -/
def sigFlag : List Param := [paramFlag]

/-- Signature `f(d: bool)`. -/
def sigDbool : List Param := [paramDbool]

/-- Signature `f(x=0, y=0)`. -/
def sigXY : List Param := [paramX, paramY]

/-- Signature `f(n: int, m, /)`. -/
def sigNM : List Param := [paramN, paramM]

/-! ### Classification lemmas -/

theorem classify_foldl (ps : List Param) (c : Classification) :
    ps.foldl classifyStep c =
      ⟨c.posOnly ++ ps.filter (fun p => p.kind == Kind.positionalOnly),
       c.posOrKw ++ ps.filter (fun p => p.kind == Kind.positionalOrKeyword),
       c.kwOnly ++ ps.filter (fun p => p.kind == Kind.keywordOnly),
       c.required ++ ps.filter (fun p => p.default.isNone)⟩ := by
  induction ps generalizing c with
  | nil => simp
  | cons p rest ih =>
    rw [List.foldl_cons, ih]
    rcases hd : p.default with _ | v <;>
      cases hk : p.kind <;>
        simp [classifyStep, hk, hd, List.filter_cons]

theorem classify_eq (ps : List Param) :
    classify ps =
      ⟨ps.filter (fun p => p.kind == Kind.positionalOnly),
       ps.filter (fun p => p.kind == Kind.positionalOrKeyword),
       ps.filter (fun p => p.kind == Kind.keywordOnly),
       ps.filter (fun p => p.default.isNone)⟩ := by
  simp [classify, classify_foldl]

theorem mem_classify_posOnly {ps : List Param} {p : Param} :
    p ∈ (classify ps).posOnly ↔ p ∈ ps ∧ p.kind = .positionalOnly := by
  simp [classify_eq, List.mem_filter]

theorem mem_classify_posOrKw {ps : List Param} {p : Param} :
    p ∈ (classify ps).posOrKw ↔ p ∈ ps ∧ p.kind = .positionalOrKeyword := by
  simp [classify_eq, List.mem_filter]

theorem mem_classify_kwOnly {ps : List Param} {p : Param} :
    p ∈ (classify ps).kwOnly ↔ p ∈ ps ∧ p.kind = .keywordOnly := by
  simp [classify_eq, List.mem_filter]

theorem mem_classify_required {ps : List Param} {p : Param} :
    p ∈ (classify ps).required ↔ p ∈ ps ∧ p.default = Option.none := by
  simp [classify_eq, List.mem_filter, Option.isNone_iff_eq_none]

/-! ### `generate_arg_options` case analysis -/

theorem gen_eq (p : Param) :
    generate_arg_options p =
      if p.isBooleanLike then
        if p.kind = .positionalOnly then
          ⟨some .storeTrue, Option.none, true⟩
        else
          ⟨some .booleanOptional, Option.none, false⟩
      else
        ⟨Option.none, p.typecast, true⟩ := by
  unfold generate_arg_options
  rw [show (p.annotationIsBool ||
      (match p.default with
       | some (.bool _) => true
       | _ => false)) = p.isBooleanLike from rfl]
  cases h : p.isBooleanLike
  · simp
  · by_cases hk : p.kind = .positionalOnly <;> simp [hk]

theorem gen_nonbool {p : Param} (h : p.isBooleanLike = false) :
    generate_arg_options p = ⟨Option.none, p.typecast, true⟩ := by
  simp [gen_eq, h]

theorem gen_bool_posOnly {p : Param} (h : p.isBooleanLike = true)
    (hk : p.kind = .positionalOnly) :
    generate_arg_options p = ⟨some .storeTrue, Option.none, true⟩ := by
  simp [gen_eq, h, hk]

theorem gen_bool_named {p : Param} (h : p.isBooleanLike = true)
    (hk : p.kind ≠ .positionalOnly) :
    generate_arg_options p = ⟨some .booleanOptional, Option.none, false⟩ := by
  simp [gen_eq, h, hk]

/-! ### Dictionary lemmas -/

theorem dictGet_append (l₁ l₂ : List (String × Value)) (n : String) :
    dictGet (l₁ ++ l₂) n = (dictGet l₁ n).or (dictGet l₂ n) := by
  induction l₁ with
  | nil => simp [dictGet]
  | cons e rest ih =>
    by_cases h : e.1 = n <;> simp [dictGet, h, ih]

theorem dictGet_eq_none {l : List (String × Value)} {n : String}
    (h : n ∉ l.map Prod.fst) : dictGet l n = Option.none := by
  induction l with
  | nil => rfl
  | cons e rest ih =>
    simp only [List.map_cons, List.mem_cons] at h
    push_neg at h
    have hne : ¬ e.1 = n := fun he => h.1 he.symm
    simp [dictGet, hne, ih h.2]

theorem dictGet_mem_of_some {l : List (String × Value)} {n : String} {v : Value}
    (h : dictGet l n = some v) : n ∈ l.map Prod.fst := by
  by_contra hn
  rw [dictGet_eq_none hn] at h
  exact Option.noConfusion h

theorem dictGet_zipVals_isSome :
    ∀ (ps : List Param) (vs : List Value) {p : Param}, p ∈ ps →
      vs.length = ps.length →
      (dictGet (List.zipWith (fun p v => (p.name, v)) ps vs)
        p.name).isSome := by
  intro ps
  induction ps with
  | nil => intro vs p hp; cases hp
  | cons q rest ih =>
    intro vs p hp hlen
    cases vs with
    | nil => simp at hlen
    | cons v vs' =>
      by_cases he : q.name = p.name
      · simp [dictGet, he]
      · rcases List.mem_cons.mp hp with rfl | hp'
        · exact absurd rfl he
        · simp only [List.zipWith_cons_cons, dictGet, he, if_false]
          exact ih vs' hp' (by simpa using hlen)

/-! ### Positional-entry lemmas -/

theorem posOnlyEntries_keys {ps : List Param} :
    ∀ {toks : List String} {es : List (String × Value)} {rest : List String},
      posOnlyEntries ps toks = some (es, rest) →
      es.map Prod.fst = ps.map Param.name := by
  induction ps with
  | nil =>
    intro toks es rest h
    simp only [posOnlyEntries, Option.some.injEq, Prod.mk.injEq] at h
    simp [← h.1]
  | cons p ps ih =>
    intro toks es rest h
    cases toks with
    | nil =>
      rw [posOnlyEntries] at h
      rcases ha : (generate_arg_options p).action with _ | act
      · rw [ha] at h; exact absurd h (by simp)
      · cases act with
        | storeTrue =>
          rw [ha] at h
          simp only [Option.map_eq_some'] at h
          obtain ⟨⟨es', rest'⟩, h1, h2⟩ := h
          obtain ⟨he, _⟩ := Prod.mk.injEq .. ▸ h2
          simp [← he, ih h1]
        | booleanOptional => rw [ha] at h; exact absurd h (by simp)
    | cons t ts =>
      rw [posOnlyEntries] at h
      rcases ha : (generate_arg_options p).action with _ | act
      · rw [ha] at h
        rcases hv : optionValue (generate_arg_options p) t with _ | v
        · rw [hv] at h; exact absurd h (by simp)
        · rw [hv] at h
          simp only [Option.map_eq_some'] at h
          obtain ⟨⟨es', rest'⟩, h1, h2⟩ := h
          obtain ⟨he, _⟩ := Prod.mk.injEq .. ▸ h2
          simp [← he, ih h1]
      · cases act with
        | storeTrue =>
          rw [ha] at h
          simp only [Option.map_eq_some'] at h
          obtain ⟨⟨es', rest'⟩, h1, h2⟩ := h
          obtain ⟨he, _⟩ := Prod.mk.injEq .. ▸ h2
          simp [← he, ih h1]
        | booleanOptional =>
          rw [ha] at h
          rcases hv : optionValue (generate_arg_options p) t with _ | v
          · rw [hv] at h; exact absurd h (by simp)
          · rw [hv] at h
            simp only [Option.map_eq_some'] at h
            obtain ⟨⟨es', rest'⟩, h1, h2⟩ := h
            obtain ⟨he, _⟩ := Prod.mk.injEq .. ▸ h2
            simp [← he, ih h1]

theorem coerceAll_length :
    ∀ {ps : List Param} {toks : List String} {vs : List Value},
      coerceAll ps toks = some vs → vs.length = ps.length := by
  intro ps
  induction ps with
  | nil =>
    intro toks vs h
    simp only [coerceAll, Option.some.injEq] at h
    simp [← h]
  | cons p rest ih =>
    intro toks vs h
    cases toks with
    | nil => exact absurd h (by simp [coerceAll])
    | cons t ts =>
      rw [coerceAll] at h
      rcases hac : p.applyCoercion t with _ | v
      · rw [hac] at h; exact absurd h (by simp)
      · rw [hac] at h
        rcases hrest : coerceAll rest ts with _ | vs'
        · rw [hrest] at h; exact absurd h (by simp)
        · rw [hrest] at h
          simp only [Option.map_some', Option.some.injEq] at h
          simp [← h, ih hrest]

theorem coerceAll_forall₂ :
    ∀ {ps : List Param} {toks : List String} {vs : List Value},
      coerceAll ps toks = some vs →
      List.Forall₂ (fun (pt : Param × String) v =>
        pt.1.applyCoercion pt.2 = some v) (ps.zip toks) vs := by
  intro ps
  induction ps with
  | nil =>
    intro toks vs h
    simp only [coerceAll, Option.some.injEq] at h
    rw [← h]
    exact List.Forall₂.nil
  | cons p rest ih =>
    intro toks vs h
    cases toks with
    | nil => exact absurd h (by simp [coerceAll])
    | cons t ts =>
      rw [coerceAll] at h
      rcases hac : p.applyCoercion t with _ | v
      · rw [hac] at h; exact absurd h (by simp)
      · rw [hac] at h
        rcases hrest : coerceAll rest ts with _ | vs'
        · rw [hrest] at h; exact absurd h (by simp)
        · rw [hrest] at h
          simp only [Option.map_some', Option.some.injEq] at h
          rw [← h, List.zip_cons_cons]
          exact List.Forall₂.cons hac (ih hrest)

theorem posOnlyEntries_nonbool :
    ∀ (ps : List Param) (toks : List String) (vs : List Value),
      (∀ p ∈ ps, p.isBooleanLike = false) → ps.length ≤ toks.length →
      coerceAll ps toks = some vs →
      posOnlyEntries ps toks =
        some (List.zipWith (fun p v => (p.name, v)) ps vs,
              toks.drop ps.length) := by
  intro ps
  induction ps with
  | nil =>
    intro toks vs _ _ hco
    simp only [coerceAll, Option.some.injEq] at hco
    simp [posOnlyEntries, ← hco]
  | cons p rest ih =>
    intro toks vs hnb hlen hco
    have hp := hnb p (List.mem_cons_self p rest)
    cases toks with
    | nil => simp at hlen
    | cons t ts =>
      have ha : (generate_arg_options p).action = Option.none := by
        rw [gen_nonbool hp]
      have hov : optionValue (generate_arg_options p) t = p.applyCoercion t := by
        rw [gen_nonbool hp]
        rfl
      rw [coerceAll] at hco
      rcases hac : p.applyCoercion t with _ | v
      · rw [hac] at hco; exact absurd hco (by simp)
      · rw [hac] at hco
        rcases hrest : coerceAll rest ts with _ | vs'
        · rw [hrest] at hco; exact absurd hco (by simp)
        · rw [hrest] at hco
          simp only [Option.map_some', Option.some.injEq] at hco
          rw [posOnlyEntries, ha, hov, hac,
            ih ts vs' (fun q hq => hnb q (List.mem_cons_of_mem p hq))
              (by simpa using hlen) hrest]
          simp [← hco]

/-! ### Flag-entry lemmas -/

theorem flagEntries_keys {ps : List Param} {input : RawInput} :
    ∀ {es}, flagEntries ps input = some es →
      es.map Prod.fst ⊆ ps.map Param.name := by
  induction ps with
  | nil =>
    intro es h
    simp only [flagEntries, Option.some.injEq] at h
    simp [← h]
  | cons p ps ih =>
    intro es h
    rw [flagEntries] at h
    rcases hfe : flagEntry (generate_arg_options p) (input.flagOf p.name)
      with _ | e
    · rw [hfe] at h; exact absurd h (by simp)
    · rw [hfe] at h
      rcases hrest : flagEntries ps input with _ | es'
      · rw [hrest] at h; exact absurd h (by simp)
      · rw [hrest] at h
        cases e with
        | none =>
          simp only [Option.some.injEq] at h
          subst h
          exact fun a ha => List.mem_cons_of_mem _ (ih hrest ha)
        | some v =>
          simp only [Option.some.injEq] at h
          subst h
          intro a ha
          simp only [List.map_cons, List.mem_cons] at ha ⊢
          exact ha.imp id (fun hm => ih hrest hm)

theorem flagEntries_dictGet {ps : List Param} {input : RawInput}
    (hnd : (ps.map Param.name).Nodup) :
    ∀ {es}, flagEntries ps input = some es → ∀ {p}, p ∈ ps →
      ∃ e, flagEntry (generate_arg_options p) (input.flagOf p.name) = some e ∧
           dictGet es p.name = e := by
  induction ps with
  | nil => intro es _ p hp; cases hp
  | cons q ps ih =>
    intro es h p hp
    rw [List.map_cons, List.nodup_cons] at hnd
    rw [flagEntries] at h
    rcases hfe : flagEntry (generate_arg_options q) (input.flagOf q.name)
      with _ | e
    · rw [hfe] at h; exact absurd h (by simp)
    · rw [hfe] at h
      rcases hrest : flagEntries ps input with _ | es'
      · rw [hrest] at h; exact absurd h (by simp)
      · rw [hrest] at h
        rcases List.mem_cons.mp hp with rfl | hp'
        · refine ⟨e, hfe, ?_⟩
          cases e with
          | none =>
            simp only [Option.some.injEq] at h
            subst h
            exact dictGet_eq_none (fun hm => hnd.1 (flagEntries_keys hrest hm))
          | some v =>
            simp only [Option.some.injEq] at h
            subst h
            simp [dictGet]
        · have hne : q.name ≠ p.name := by
            intro he
            exact hnd.1 (he ▸ List.mem_map.mpr ⟨p, hp', rfl⟩)
          obtain ⟨e', hfe', hdg⟩ := ih hnd.2 hrest hp'
          refine ⟨e', hfe', ?_⟩
          cases e with
          | none =>
            simp only [Option.some.injEq] at h
            subst h
            exact hdg
          | some v =>
            simp only [Option.some.injEq] at h
            subst h
            simpa [dictGet, hne] using hdg

/-! ### Name-disjointness helpers -/

theorem name_inj {ps : List Param} (hnd : (ps.map Param.name).Nodup)
    {p q : Param} (hp : p ∈ ps) (hq : q ∈ ps) (h : p.name = q.name) :
    p = q :=
  List.inj_on_of_nodup_map hnd hp hq h

theorem name_notin_other_kind {ps : List Param}
    (hnd : (ps.map Param.name).Nodup) {p : Param} (hp : p ∈ ps)
    {qs : List Param} (hqs : ∀ q ∈ qs, q ∈ ps ∧ q.kind ≠ p.kind) :
    p.name ∉ qs.map Param.name := by
  intro hmem
  obtain ⟨q, hq, hqname⟩ := List.mem_map.mp hmem
  exact (hqs q hq).2 (by rw [name_inj hnd (hqs q hq).1 hp hqname])

theorem bucket_names_nodup {ps : List Param}
    (hnd : (ps.map Param.name).Nodup) (f : Param → Bool) :
    ((ps.filter f).map Param.name).Nodup :=
  hnd.sublist ((List.filter_sublist ps).map Param.name)

/-! ### Namespace lookup characterization -/

theorem buildNamespace_eq {c : Classification} {input : RawInput} {ns : CmdArgs}
    (h : buildNamespace c input = some ns) :
    ∃ pe pokE koE, posOnlyEntries c.posOnly input.positionals = some pe ∧
      flagEntries c.posOrKw input = some pokE ∧
      flagEntries c.kwOnly input = some koE ∧
      ns.vals = pe.1 ++ pokE ++ koE ∧ ns.catchAll = pe.2 := by
  rw [buildNamespace] at h
  rcases hpe : posOnlyEntries c.posOnly input.positionals with _ | pe
  · rw [hpe] at h; exact absurd h (by simp)
  rw [hpe] at h
  rcases hpok : flagEntries c.posOrKw input with _ | pokE
  · rw [hpok] at h; exact absurd h (by simp)
  rcases hko : flagEntries c.kwOnly input with _ | koE
  · rw [hpok, hko] at h; exact absurd h (by simp)
  rw [hpok, hko] at h
  dsimp only at h
  by_cases hemp : c.posOrKw.isEmpty = true
  · by_cases hres : pe.2.isEmpty = true
    · rw [if_pos hemp, if_pos hres] at h
      simp only [Option.some.injEq] at h
      refine ⟨pe, pokE, koE, rfl, rfl, rfl, ?_, ?_⟩
      · rw [← h]
      · rw [← h]
        exact (List.isEmpty_iff.mp hres).symm
    · rw [if_pos hemp, if_neg hres] at h
      exact absurd h (by simp)
  · rw [if_neg hemp] at h
    simp only [Option.some.injEq] at h
    exact ⟨pe, pokE, koE, rfl, rfl, rfl, by rw [← h], by rw [← h]⟩

theorem buildNamespace_lookup_posOrKw {ps : List Param} {input : RawInput}
    {ns : CmdArgs} {p : Param} (hnd : (ps.map Param.name).Nodup)
    (h : buildNamespace (classify ps) input = some ns)
    (hp : p ∈ (classify ps).posOrKw) :
    ∃ e, flagEntry (generate_arg_options p) (input.flagOf p.name) = some e ∧
         ns.lookup p.name = e := by
  obtain ⟨pe, pokE, koE, hpe, hpok, hko, hvals, _⟩ := buildNamespace_eq h
  obtain ⟨hpps, hpkind⟩ := mem_classify_posOrKw.mp hp
  have hndpok : ((classify ps).posOrKw.map Param.name).Nodup := by
    rw [classify_eq]; exact bucket_names_nodup hnd _
  obtain ⟨e, hfe, hdg⟩ := flagEntries_dictGet hndpok hpok hp
  refine ⟨e, hfe, ?_⟩
  have hnotpos : p.name ∉ pe.1.map Prod.fst := by
    rw [posOnlyEntries_keys hpe]
    refine name_notin_other_kind hnd hpps (fun q hq => ?_)
    have := mem_classify_posOnly.mp hq
    exact ⟨this.1, by rw [this.2, hpkind]; intro hc; cases hc⟩
  have hnotko : p.name ∉ koE.map Prod.fst := by
    intro hmem
    have := flagEntries_keys hko hmem
    refine name_notin_other_kind hnd hpps (fun q hq => ?_) this
    have := mem_classify_kwOnly.mp hq
    exact ⟨this.1, by rw [this.2, hpkind]; intro hc; cases hc⟩
  rw [CmdArgs.lookup, hvals, List.append_assoc, dictGet_append,
    dictGet_eq_none hnotpos, Option.none_or, dictGet_append, hdg]
  cases e with
  | none => rw [Option.none_or, dictGet_eq_none hnotko]
  | some v => rfl

theorem buildNamespace_lookup_kwOnly {ps : List Param} {input : RawInput}
    {ns : CmdArgs} {p : Param} (hnd : (ps.map Param.name).Nodup)
    (h : buildNamespace (classify ps) input = some ns)
    (hp : p ∈ (classify ps).kwOnly) :
    ∃ e, flagEntry (generate_arg_options p) (input.flagOf p.name) = some e ∧
         ns.lookup p.name = e := by
  obtain ⟨pe, pokE, koE, hpe, hpok, hko, hvals, _⟩ := buildNamespace_eq h
  obtain ⟨hpps, hpkind⟩ := mem_classify_kwOnly.mp hp
  have hndko : ((classify ps).kwOnly.map Param.name).Nodup := by
    rw [classify_eq]; exact bucket_names_nodup hnd _
  obtain ⟨e, hfe, hdg⟩ := flagEntries_dictGet hndko hko hp
  refine ⟨e, hfe, ?_⟩
  have hnotpos : p.name ∉ pe.1.map Prod.fst := by
    rw [posOnlyEntries_keys hpe]
    refine name_notin_other_kind hnd hpps (fun q hq => ?_)
    have := mem_classify_posOnly.mp hq
    exact ⟨this.1, by rw [this.2, hpkind]; intro hc; cases hc⟩
  have hnotpok : p.name ∉ pokE.map Prod.fst := by
    intro hmem
    have := flagEntries_keys hpok hmem
    refine name_notin_other_kind hnd hpps (fun q hq => ?_) this
    have := mem_classify_posOrKw.mp hq
    exact ⟨this.1, by rw [this.2, hpkind]; intro hc; cases hc⟩
  rw [CmdArgs.lookup, hvals, List.append_assoc, dictGet_append,
    dictGet_eq_none hnotpos, Option.none_or, dictGet_append,
    dictGet_eq_none hnotpok, Option.none_or, hdg]

/-! ### Flag-entry corollaries -/

theorem flagEntry_plain_absent {o : ArgOptions} (ho : o.action = Option.none) :
    flagEntry o .absent = some Option.none := by
  simp [flagEntry, ho]

theorem flagEntry_boolOpt_inv {o : ArgOptions}
    (ho : o.action = some .booleanOptional) {fi : FlagInput} {e : Option Value}
    (h : flagEntry o fi = some e) : e = some (toggleValue fi) := by
  cases fi <;> simp [flagEntry, ho, toggleValue] at h ⊢ <;> exact h.symm

/-! ### `resolvePoK` lemmas -/

theorem resolvePoK_ext (poks : List Param) (ns : CmdArgs)
    (kw : List (String × Value)) :
    ∃ ext₁ ext₂, (resolvePoK poks ns kw).1.vals = ns.vals ++ ext₁ ∧
      (resolvePoK poks ns kw).2 = kw ++ ext₂ ∧
      ext₁.map Prod.fst ⊆ poks.map Param.name ∧
      ext₂.map Prod.fst ⊆ poks.map Param.name := by
  induction poks generalizing ns kw with
  | nil => exact ⟨[], [], by simp [resolvePoK], by simp [resolvePoK], by simp,
      by simp⟩
  | cons p rest ih =>
    rcases hl : ns.lookup p.name with _ | v
    · rcases hca : ns.catchAll with _ | ⟨t, ts⟩
      · obtain ⟨e1, e2, h1, h2, s1, s2⟩ := ih ns kw
        refine ⟨e1, e2, ?_, ?_, ?_, ?_⟩
        · simp only [resolvePoK, hl, hca]; exact h1
        · simp only [resolvePoK, hl, hca]; exact h2
        · exact List.subset_cons_of_subset _ s1
        · exact List.subset_cons_of_subset _ s2
      · obtain ⟨e1, e2, h1, h2, s1, s2⟩ :=
          ih ⟨ns.vals ++ [(p.name, .str t)], ts⟩ (kw ++ [(p.name, .str t)])
        refine ⟨(p.name, .str t) :: e1, (p.name, .str t) :: e2, ?_, ?_, ?_, ?_⟩
        · simp only [resolvePoK, hl, hca]
          rw [h1]; simp
        · simp only [resolvePoK, hl, hca]
          rw [h2]; simp
        · simp only [List.map_cons, List.cons_subset, List.map_cons]
          exact ⟨List.mem_cons_self _ _,
            List.subset_cons_of_subset _ s1⟩
        · simp only [List.map_cons, List.cons_subset, List.map_cons]
          exact ⟨List.mem_cons_self _ _,
            List.subset_cons_of_subset _ s2⟩
    · obtain ⟨e1, e2, h1, h2, s1, s2⟩ := ih ns (kw ++ [(p.name, v)])
      refine ⟨e1, (p.name, v) :: e2, ?_, ?_, ?_, ?_⟩
      · simp only [resolvePoK, hl]
        exact h1
      · simp only [resolvePoK, hl]
        rw [h2]; simp
      · exact List.subset_cons_of_subset _ s1
      · simp only [List.map_cons, List.cons_subset]
        exact ⟨List.mem_cons_self _ _,
          List.subset_cons_of_subset _ s2⟩

theorem resolvePoK_lookup_preserved {poks : List Param} {ns : CmdArgs}
    {kw : List (String × Value)} {n : String} {v : Value}
    (h : ns.lookup n = some v) :
    (resolvePoK poks ns kw).1.lookup n = some v := by
  obtain ⟨e1, _, h1, _, _, _⟩ := resolvePoK_ext poks ns kw
  rw [CmdArgs.lookup, h1, dictGet_append]
  rw [CmdArgs.lookup] at h
  rw [h]
  rfl

theorem resolvePoK_kw_preserved {poks : List Param} {ns : CmdArgs}
    {kw : List (String × Value)} {n : String} {v : Value}
    (h : dictGet kw n = some v) :
    dictGet (resolvePoK poks ns kw).2 n = some v := by
  obtain ⟨_, e2, _, h2, _, _⟩ := resolvePoK_ext poks ns kw
  rw [h2, dictGet_append, h]
  rfl

theorem resolvePoK_lookup_other {poks : List Param} {ns : CmdArgs}
    {kw : List (String × Value)} {n : String}
    (h : n ∉ poks.map Param.name) :
    (resolvePoK poks ns kw).1.lookup n = ns.lookup n := by
  obtain ⟨e1, _, h1, _, s1, _⟩ := resolvePoK_ext poks ns kw
  rw [CmdArgs.lookup, h1, dictGet_append,
    dictGet_eq_none (fun hm => h (s1 hm))]
  cases hl : ns.lookup n <;> simp [CmdArgs.lookup] at hl <;> simp [hl]

theorem resolvePoK_binds {poks : List Param}
    (hnd : (poks.map Param.name).Nodup) {p : Param} (hp : p ∈ poks) :
    ∀ {ns : CmdArgs} {kw : List (String × Value)} {v : Value},
      ns.lookup p.name = some v → dictGet kw p.name = Option.none →
      dictGet (resolvePoK poks ns kw).2 p.name = some v := by
  induction poks with
  | nil => cases hp
  | cons q rest ih =>
    intro ns kw v hl hkw
    rw [List.map_cons, List.nodup_cons] at hnd
    rcases List.mem_cons.mp hp with rfl | hp'
    · rw [resolvePoK, hl]
      exact resolvePoK_kw_preserved (by rw [dictGet_append, hkw]; simp [dictGet])
    · have hne : q.name ≠ p.name := fun he =>
        hnd.1 (he ▸ List.mem_map.mpr ⟨p, hp', rfl⟩)
      rcases hql : ns.lookup q.name with _ | w
      · rcases hca : ns.catchAll with _ | ⟨t, ts⟩
        · rw [resolvePoK, hql, hca]
          exact ih hnd.2 hp' hl hkw
        · rw [resolvePoK, hql, hca]
          refine ih hnd.2 hp' ?_ ?_
          · rw [CmdArgs.lookup, dictGet_append]
            rw [CmdArgs.lookup] at hl
            rw [hl]; rfl
          · rw [dictGet_append, hkw]
            simp [dictGet, hne]
      · rw [resolvePoK, hql]
        refine ih hnd.2 hp' hl ?_
        rw [dictGet_append, hkw]
        simp [dictGet, hne]

theorem resolvePoK_complete {poks : List Param}
    (hnd : (poks.map Param.name).Nodup) {p : Param} (hp : p ∈ poks) :
    ∀ {ns : CmdArgs} {kw : List (String × Value)},
      ((resolvePoK poks ns kw).1.lookup p.name).isSome →
      (dictGet (resolvePoK poks ns kw).2 p.name).isSome := by
  induction poks with
  | nil => cases hp
  | cons q rest ih =>
    intro ns kw hs
    rw [List.map_cons, List.nodup_cons] at hnd
    rcases List.mem_cons.mp hp with rfl | hp'
    · rcases hql : ns.lookup p.name with _ | w
      · rcases hca : ns.catchAll with _ | ⟨t, ts⟩
        · rw [resolvePoK, hql, hca] at hs ⊢
          have : (resolvePoK rest ns kw).1.lookup p.name = ns.lookup p.name :=
            resolvePoK_lookup_other hnd.1
          rw [this, hql] at hs
          exact absurd hs (by simp)
        · rw [resolvePoK, hql, hca]
          have : dictGet (kw ++ [(p.name, Value.str t)]) p.name = some (.str t)
              ∨ (dictGet (kw ++ [(p.name, Value.str t)]) p.name).isSome := by
            rcases hkw : dictGet kw p.name with _ | u
            · exact Or.inl (by rw [dictGet_append, hkw]; simp [dictGet])
            · exact Or.inr (by rw [dictGet_append, hkw]; simp)
          rcases this with h' | h'
          · exact Option.isSome_iff_exists.mpr
              ⟨_, resolvePoK_kw_preserved h'⟩
          · obtain ⟨u, hu⟩ := Option.isSome_iff_exists.mp h'
            exact Option.isSome_iff_exists.mpr
              ⟨_, resolvePoK_kw_preserved hu⟩
      · rw [resolvePoK, hql]
        have : dictGet (kw ++ [(p.name, w)]) p.name =
            some ((dictGet kw p.name).getD w) := by
          rcases hkw : dictGet kw p.name with _ | u
          · rw [dictGet_append, hkw]; simp [dictGet]
          · rw [dictGet_append, hkw]; simp
        exact Option.isSome_iff_exists.mpr
          ⟨_, resolvePoK_kw_preserved this⟩
    · rcases hql : ns.lookup q.name with _ | w
      · rcases hca : ns.catchAll with _ | ⟨t, ts⟩
        · rw [resolvePoK, hql, hca] at hs ⊢
          exact ih hnd.2 hp' hs
        · rw [resolvePoK, hql, hca] at hs ⊢
          exact ih hnd.2 hp' hs
      · rw [resolvePoK, hql] at hs ⊢
        exact ih hnd.2 hp' hs

/-! ### `resolveKO` lemmas -/

theorem resolveKO_ext (kos : List Param) (ns : CmdArgs)
    (kw : List (String × Value)) :
    ∃ ext, resolveKO kos ns kw = kw ++ ext ∧
      ext.map Prod.fst ⊆ kos.map Param.name := by
  induction kos generalizing kw with
  | nil => exact ⟨[], by simp [resolveKO], by simp⟩
  | cons q rest ih =>
    rcases hql : ns.lookup q.name with _ | w
    · obtain ⟨ext, h1, s1⟩ := ih kw
      exact ⟨ext, by rw [resolveKO, hql]; exact h1,
        List.subset_cons_of_subset _ s1⟩
    · obtain ⟨ext, h1, s1⟩ := ih (kw ++ [(q.name, w)])
      refine ⟨(q.name, w) :: ext, ?_, ?_⟩
      · simp only [resolveKO, hql]
        rw [h1]; simp
      · simp only [List.map_cons, List.cons_subset]
        exact ⟨List.mem_cons_self _ _,
          List.subset_cons_of_subset _ s1⟩

theorem resolveKO_preserved {kos : List Param} {ns : CmdArgs}
    {kw : List (String × Value)} {n : String} {v : Value}
    (h : dictGet kw n = some v) :
    dictGet (resolveKO kos ns kw) n = some v := by
  obtain ⟨ext, h1, _⟩ := resolveKO_ext kos ns kw
  rw [h1, dictGet_append, h]
  rfl

theorem resolveKO_binds {kos : List Param}
    (hnd : (kos.map Param.name).Nodup) {p : Param} (hp : p ∈ kos) :
    ∀ {ns : CmdArgs} {kw : List (String × Value)} {v : Value},
      ns.lookup p.name = some v → dictGet kw p.name = Option.none →
      dictGet (resolveKO kos ns kw) p.name = some v := by
  induction kos with
  | nil => cases hp
  | cons q rest ih =>
    intro ns kw v hl hkw
    rw [List.map_cons, List.nodup_cons] at hnd
    rcases List.mem_cons.mp hp with rfl | hp'
    · rw [resolveKO, hl]
      exact resolveKO_preserved (by rw [dictGet_append, hkw]; simp [dictGet])
    · have hne : q.name ≠ p.name := fun he =>
        hnd.1 (he ▸ List.mem_map.mpr ⟨p, hp', rfl⟩)
      rcases hql : ns.lookup q.name with _ | w
      · rw [resolveKO, hql]
        exact ih hnd.2 hp' hl hkw
      · rw [resolveKO, hql]
        refine ih hnd.2 hp' hl ?_
        rw [dictGet_append, hkw]
        simp [dictGet, hne]

theorem resolveKO_complete {kos : List Param} {p : Param} (hp : p ∈ kos) :
    ∀ {ns : CmdArgs} {kw : List (String × Value)},
      (ns.lookup p.name).isSome →
      (dictGet (resolveKO kos ns kw) p.name).isSome := by
  induction kos with
  | nil => cases hp
  | cons q rest ih =>
    intro ns kw hs
    rcases List.mem_cons.mp hp with rfl | hp'
    · obtain ⟨v, hv⟩ := Option.isSome_iff_exists.mp hs
      rw [resolveKO, hv]
      have : dictGet (kw ++ [(p.name, v)]) p.name =
          some ((dictGet kw p.name).getD v) := by
        rcases hkw : dictGet kw p.name with _ | u
        · rw [dictGet_append, hkw]; simp [dictGet]
        · rw [dictGet_append, hkw]; simp
      exact Option.isSome_iff_exists.mpr ⟨_, resolveKO_preserved this⟩
    · rcases hql : ns.lookup q.name with _ | w <;>
        rw [resolveKO, hql] <;> exact ih hp' hs

/-! ### `resolvePosOnly` lemmas -/

theorem resolvePosOnly_length {ps : List Param} :
    ∀ {ns : CmdArgs} {args : List Value},
      resolvePosOnly ps ns = .ok args → args.length = ps.length := by
  induction ps with
  | nil =>
    intro ns args h
    simp only [resolvePosOnly, Except.ok.injEq] at h
    simp [← h]
  | cons p rest ih =>
    intro ns args h
    rcases hl : ns.lookup p.name with _ | v
    · rw [resolvePosOnly, hl] at h
      exact absurd h (by simp)
    · rw [resolvePosOnly, hl] at h
      rcases hrec : resolvePosOnly rest ns with e | args'
      · rw [hrec] at h; exact absurd h (by simp [Except.map])
      · rw [hrec] at h
        simp only [Except.map, Except.ok.injEq] at h
        simp [← h, ih hrec]

theorem resolvePosOnly_skip {ps : List Param} {k : String} {v : Value}
    (h : k ∉ ps.map Param.name) (es : List (String × Value))
    (ca : List String) :
    resolvePosOnly ps ⟨(k, v) :: es, ca⟩ = resolvePosOnly ps ⟨es, ca⟩ := by
  induction ps with
  | nil => rfl
  | cons p rest ih =>
    simp only [List.map_cons, List.mem_cons] at h
    push_neg at h
    have hlk : CmdArgs.lookup ⟨(k, v) :: es, ca⟩ p.name =
        CmdArgs.lookup ⟨es, ca⟩ p.name := by
      simp [CmdArgs.lookup, dictGet, h.1]
    rw [resolvePosOnly, resolvePosOnly, hlk, ih h.2]

theorem resolvePosOnly_zipVals :
    ∀ (ps : List Param) (vs : List Value) (ca : List String),
      (ps.map Param.name).Nodup → vs.length = ps.length →
      resolvePosOnly ps
        ⟨List.zipWith (fun p v => (p.name, v)) ps vs, ca⟩ = .ok vs := by
  intro ps
  induction ps with
  | nil =>
    intro vs ca _ hlen
    cases vs with
    | nil => rfl
    | cons v vs' => simp at hlen
  | cons p rest ih =>
    intro vs ca hnd hlen
    cases vs with
    | nil => simp at hlen
    | cons v vs' =>
      rw [List.map_cons, List.nodup_cons] at hnd
      simp only [List.zipWith_cons_cons]
      rw [resolvePosOnly]
      have hlk : CmdArgs.lookup
          ⟨(p.name, v) :: List.zipWith (fun p v => (p.name, v)) rest vs',
            ca⟩ p.name = some v := by
        simp [CmdArgs.lookup, dictGet]
      rw [hlk, resolvePosOnly_skip hnd.1, ih vs' ca hnd.2 (by simpa using hlen)]
      rfl

/-! ### `missingRequired` / `resolveNamespace` lemmas -/

theorem missingRequired_nil_iff {req : List Param} {ns : CmdArgs} :
    missingRequired req ns = [] ↔ ∀ p ∈ req, (ns.lookup p.name).isSome := by
  rw [missingRequired, List.map_eq_nil_iff, List.filter_eq_nil_iff]
  constructor
  · intro h p hp
    have := h p hp
    simpa [Option.isNone_iff_eq_none, Option.isSome_iff_ne_none] using this
  · intro h p hp
    simpa [Option.isNone_iff_eq_none, ← Option.isSome_iff_ne_none] using h p hp

theorem mem_missingRequired {req : List Param} {ns : CmdArgs} {n : String} :
    n ∈ missingRequired req ns ↔
      ∃ p ∈ req, p.name = n ∧ ns.lookup p.name = Option.none := by
  rw [missingRequired]
  simp only [List.mem_map, List.mem_filter, Option.isNone_iff_eq_none]
  constructor
  · rintro ⟨p, ⟨hp, hn⟩, rfl⟩
    exact ⟨p, hp, rfl, hn⟩
  · rintro ⟨p, hp, rfl, hn⟩
    exact ⟨p, ⟨hp, hn⟩, rfl⟩

theorem resolveNamespace_ok {c : Classification} {ns : CmdArgs} {r : Resolved}
    (h : resolveNamespace c ns = .ok r) :
    ∃ args, resolvePosOnly c.posOnly ns = .ok args ∧
      missingRequired c.required (resolvePoK c.posOrKw ns []).1 = [] ∧
      r = ⟨args, resolveKO c.kwOnly (resolvePoK c.posOrKw ns []).1
            (resolvePoK c.posOrKw ns []).2⟩ := by
  rw [resolveNamespace] at h
  rcases hpo : resolvePosOnly c.posOnly ns with e | args
  · rw [hpo] at h; exact absurd h (by simp)
  · rw [hpo] at h
    dsimp only at h
    rcases hmr : missingRequired c.required (resolvePoK c.posOrKw ns []).1
      with _ | ⟨m, ms⟩
    · rw [checkRequired, hmr] at h
      simp only [Except.ok.injEq] at h
      exact ⟨args, rfl, rfl, h.symm⟩
    · rw [checkRequired, hmr] at h
      exact absurd h (by simp)

theorem resolveNamespace_missing {c : Classification} {ns : CmdArgs}
    {args : List Value} {m : String} {ms : List String}
    (hpo : resolvePosOnly c.posOnly ns = .ok args)
    (hm : missingRequired c.required (resolvePoK c.posOrKw ns []).1 = m :: ms) :
    resolveNamespace c ns =
      .error ("the following arguments are required: " ++ m) := by
  rw [resolveNamespace, hpo]
  dsimp only
  rw [checkRequired, hm]

/-! ### Claims -/

/-- C6: classification is a single pass that places each parameter in
exactly the bucket of its kind — every bucket is the in-declaration-order
selection of the parameters of that kind, so no parameter is dropped,
duplicated within a bucket, or reordered relative to declaration order —
and, for signatures with unique parameter names, a parameter's name is in
the required set if and only if the parameter has no default. -/
theorem C6_classification (ps : List Param) :
    ((classify ps).posOnly = ps.filter (fun p => p.kind == Kind.positionalOnly) ∧
     (classify ps).posOrKw =
       ps.filter (fun p => p.kind == Kind.positionalOrKeyword) ∧
     (classify ps).kwOnly = ps.filter (fun p => p.kind == Kind.keywordOnly) ∧
     (classify ps).required = ps.filter (fun p => p.default.isNone)) ∧
    (∀ p ∈ ps, (ps.map Param.name).Nodup →
      (p.name ∈ (classify ps).required.map Param.name ↔
        p.default = Option.none)) := by
  constructor
  · rw [classify_eq]
    exact ⟨rfl, rfl, rfl, rfl⟩
  · intro p hp hnd
    constructor
    · intro hmem
      obtain ⟨q, hq, hqname⟩ := List.mem_map.mp hmem
      obtain ⟨hqps, hqdef⟩ := mem_classify_required.mp hq
      rw [← name_inj hnd hqps hp hqname]
      exact hqdef
    · intro hdef
      exact List.mem_map.mpr ⟨p, mem_classify_required.mpr ⟨hp, hdef⟩, rfl⟩

/-- C6 witness: in `f(a, /, b=1, *, c)` the name `c` is in the required set
(no default) and the buckets are the per-kind selections. -/
theorem C6_witness :
    ((classify sigABC).required =
      sigABC.filter (fun p => p.default.isNone)) ∧
    (paramCreq.name ∈ (classify sigABC).required.map Param.name ↔
      paramCreq.default = Option.none) :=
  ⟨(C6_classification sigABC).1.2.2.2,
   (C6_classification sigABC).2 paramCreq (by decide) (by decide)⟩

/-- C4: in the positional-or-keyword pass, a parameter whose named flag is
unset (no namespace entry) claims exactly the front token of the shared
catch-all list, binding it under its name; when the catch-all list is
exhausted the parameter is left unbound and the pass continues without
error; in particular, for `f(x=0, y=0)` with neither flag set and tokens
`["5", "6"]`, resolution binds `x="5"` and `y="6"`. -/
theorem C4_catchall :
    (∀ (p : Param) (rest : List Param) (ns : CmdArgs)
       (kw : List (String × Value)) (t : String) (ts : List String),
       ns.lookup p.name = Option.none → ns.catchAll = t :: ts →
       resolvePoK (p :: rest) ns kw =
         resolvePoK rest ⟨ns.vals ++ [(p.name, .str t)], ts⟩
           (kw ++ [(p.name, .str t)])) ∧
    (∀ (p : Param) (rest : List Param) (ns : CmdArgs)
       (kw : List (String × Value)),
       ns.lookup p.name = Option.none → ns.catchAll = [] →
       resolvePoK (p :: rest) ns kw = resolvePoK rest ns kw) ∧
    parse_args sigXY ⟨[], ["5", "6"]⟩ =
      some (.ok ⟨[], [("x", .str "5"), ("y", .str "6")]⟩) := by
  refine ⟨?_, ?_, rfl⟩
  · intro p rest ns kw t ts hl hca
    rw [resolvePoK, hl, hca]
  · intro p rest ns kw hl hca
    rw [resolvePoK, hl, hca]

/-- C4 witness: the two step equations applied at `f(x=0, y=0)` with tokens
`["5", "6"]`, and at an exhausted catch-all list. -/
theorem C4_witness :
    (resolvePoK [paramX, paramY] ⟨[], ["5", "6"]⟩ [] =
      resolvePoK [paramY] ⟨[("x", .str "5")], ["6"]⟩ [("x", .str "5")]) ∧
    (resolvePoK [paramY] ⟨[], []⟩ [] = resolvePoK [] ⟨[], []⟩ []) :=
  ⟨C4_catchall.1 paramX [paramY] ⟨[], ["5", "6"]⟩ [] "5" ["6"] rfl rfl,
   C4_catchall.2.1 paramY [] ⟨[], []⟩ [] rfl rfl⟩

/-- C9: a non-boolean positional-or-keyword parameter bound from the
catch-all list receives the raw token string unchanged (`Value.str`), and
the positional-or-keyword pass is entirely independent of the parameter's
coercion function, which is only registered for the named-flag form. -/
theorem C9_raw_catchall :
    (∀ (p : Param) (rest : List Param) (ns : CmdArgs)
       (kw : List (String × Value)) (t : String) (ts : List String),
       ns.lookup p.name = Option.none → ns.catchAll = t :: ts →
       resolvePoK (p :: rest) ns kw =
         resolvePoK rest ⟨ns.vals ++ [(p.name, Value.str t)], ts⟩
           (kw ++ [(p.name, Value.str t)]) ∧
       Value.str t ≠ Value.pynone) ∧
    (∀ (p : Param) (tc : Option Typecast) (rest : List Param) (ns : CmdArgs)
       (kw : List (String × Value)),
       resolvePoK ({ p with typecast := tc } :: rest) ns kw =
         resolvePoK (p :: rest) ns kw) := by
  constructor
  · intro p rest ns kw t ts hl hca
    refine ⟨?_, by simp⟩
    rw [resolvePoK, hl, hca]
  · intro p tc rest ns kw
    rfl

/-- C9 witness: with `x`'s flag unset and token `"7"` at the front of the
catch-all list, the binding is the raw string `"7"`, even though `x` is
given an integer coercion. -/
theorem C9_witness :
    (resolvePoK [{ paramX with typecast := some .toInt }] ⟨[], ["7"]⟩ [] =
      resolvePoK [] ⟨[("x", Value.str "7")], []⟩ [("x", Value.str "7")]) ∧
    (resolvePoK [{ paramX with typecast := some .toInt }] ⟨[], ["7"]⟩ [] =
      resolvePoK [paramX] ⟨[], ["7"]⟩ []) :=
  ⟨(C9_raw_catchall.1 { paramX with typecast := some .toInt } [] ⟨[], ["7"]⟩
      [] "7" [] rfl rfl).1,
   C9_raw_catchall.2 paramX (some .toInt) [] ⟨[], ["7"]⟩ []⟩

/-- C7: a boolean-like positional-or-keyword parameter always has a
namespace entry — the value of its named tri-state toggle (explicit-true,
explicit-false, or the unset default) — so its resolution step binds that
value and neither consumes a catch-all token nor changes the namespace. -/
theorem C7_boolean_no_catchall :
    (∀ (ps : List Param) (input : RawInput) (ns : CmdArgs) (p : Param),
       (ps.map Param.name).Nodup →
       buildNamespace (classify ps) input = some ns →
       p ∈ (classify ps).posOrKw → p.isBooleanLike = true →
       ns.lookup p.name = some (toggleValue (input.flagOf p.name))) ∧
    (∀ (p : Param) (rest : List Param) (ns : CmdArgs)
       (kw : List (String × Value)) (v : Value),
       ns.lookup p.name = some v →
       resolvePoK (p :: rest) ns kw = resolvePoK rest ns (kw ++ [(p.name, v)])) := by
  constructor
  · intro ps input ns p hnd h hp hb
    obtain ⟨e, hfe, hl⟩ := buildNamespace_lookup_posOrKw hnd h hp
    have hk : p.kind ≠ .positionalOnly := by
      rw [(mem_classify_posOrKw.mp hp).2]
      intro hc; cases hc
    have ho : (generate_arg_options p).action = some .booleanOptional := by
      rw [gen_bool_named hb hk]
    rw [hl, flagEntry_boolOpt_inv ho hfe]
  · intro p rest ns kw v hl
    rw [resolvePoK, hl]

/-- C7 witness: for `f(d: bool)` with the toggle unset, `d`'s namespace
entry is the toggle default and its step leaves the namespace (and hence
the catch-all list) unchanged. -/
theorem C7_witness :
    (CmdArgs.lookup ⟨[("d", Value.pynone)], []⟩ paramDbool.name =
      some (toggleValue (RawInput.flagOf ⟨[], []⟩ paramDbool.name))) ∧
    (resolvePoK [paramDbool] ⟨[("d", Value.pynone)], ["z"]⟩ [] =
      resolvePoK [] ⟨[("d", Value.pynone)], ["z"]⟩ [("d", Value.pynone)]) :=
  ⟨C7_boolean_no_catchall.1 sigDbool ⟨[], []⟩ ⟨[("d", Value.pynone)], []⟩
      paramDbool (by decide) rfl (by decide) rfl,
   C7_boolean_no_catchall.2 paramDbool [] ⟨[("d", Value.pynone)], ["z"]⟩ []
      Value.pynone rfl⟩

/-- C3 (records the divergence): for `f(flag: bool, /)` the generated
surface is a positional with a `store_true` action, which always fires
while consuming no token; the empty command line therefore binds `flag` to
`true` — not `false` as absence should give — and supplying a token for
the flag is an unrecognized-arguments parse error, so `flag` can never be
bound `false`. -/
theorem C3_code_eval :
    parse_args sigFlag ⟨[], []⟩ = some (.ok ⟨[Value.bool true], []⟩) ∧
    parse_args sigFlag ⟨[], ["x"]⟩ = Option.none ∧
    (generate_arg_options paramFlag).action = some .storeTrue :=
  ⟨rfl, rfl, rfl⟩

/-- C1 counterexample: for `f(b, *, c)` with everything omitted, both
required parameters `b` and `c` remain unbound after the three passes, yet
resolution fails naming only the first — the failure does not list every
missing required name. -/
theorem C1_counterexample :
    buildNamespace (classify sigBC) ⟨[], []⟩ = some ⟨[], []⟩ ∧
    missingRequired (classify sigBC).required
      (resolvePoK (classify sigBC).posOrKw ⟨[], []⟩ []).1 = ["b", "c"] ∧
    parse_args sigBC ⟨[], []⟩ =
      some (.error "the following arguments are required: b") :=
  ⟨rfl, rfl, rfl⟩

/-- C1 amended: when required parameters remain unbound after the three
passes, resolution fails with a failure naming only the first missing
required parameter in required-set order; in particular, for
`f(a, /, b=1, *, c)` with `c` omitted, the failure names exactly `c`,
regardless of how `a` and `b` were supplied. -/
theorem C1_missing_first :
    (∀ (c : Classification) (ns : CmdArgs) (args : List Value) (m : String)
       (ms : List String),
       resolvePosOnly c.posOnly ns = .ok args →
       missingRequired c.required (resolvePoK c.posOrKw ns []).1 = m :: ms →
       resolveNamespace c ns =
         .error ("the following arguments are required: " ++ m)) ∧
    (∀ (fb : FlagInput) (t : String) (toks : List String),
       (fb = .absent ∨ ∃ s, fb = .value s) →
       parse_args sigABC ⟨[("b", fb)], t :: toks⟩ =
         some (.error "the following arguments are required: c")) := by
  constructor
  · intro c ns args m ms hpo hm
    exact resolveNamespace_missing hpo hm
  · intro fb t toks hfb
    rcases hfb with rfl | ⟨s, rfl⟩
    · cases toks with
      | nil => rfl
      | cons t2 ts2 => rfl
    · rfl

/-- C1 witness: the amended claim instantiated at `f(b, *, c)` with
everything omitted (first missing name `b` reported) and at
`f(a, /, b=1, *, c)` with `a` supplied and `c` omitted. -/
theorem C1_witness :
    resolveNamespace (classify sigBC) ⟨[], []⟩ =
      .error ("the following arguments are required: " ++ "b") ∧
    parse_args sigABC ⟨[("b", FlagInput.absent)], ["t"]⟩ =
      some (.error "the following arguments are required: c") :=
  ⟨C1_missing_first.1 (classify sigBC) ⟨[], []⟩ [] "b" ["c"] rfl rfl,
   C1_missing_first.2 .absent "t" [] (Or.inl rfl)⟩

/-- C2 counterexample: the option generated for the required boolean-like
keyword-only parameter `c` does not default to the unset sentinel, and with
its toggle given in neither form the parameter does not remain unbound and
does not fail resolution — it is bound to `None` and resolution succeeds. -/
theorem C2_counterexample :
    (generate_arg_options paramCbool).suppressDefault = false ∧
    parse_args sigCbool ⟨[], []⟩ =
      some (.ok ⟨[], [("c", Value.pynone)]⟩) :=
  ⟨rfl, rfl⟩

/-- C2 amended: options for non-boolean parameters default to the explicit
unset sentinel (no namespace entry when omitted), and a non-boolean
keyword-only parameter whose flag is omitted remains unbound and fails
resolution when required; but options for boolean-like
positional-or-keyword and keyword-only parameters default to `None`
instead, which is a present namespace entry, so such parameters are bound
rather than left unbound. -/
theorem C2_defaults :
    (∀ p : Param, p.isBooleanLike = false →
       (generate_arg_options p).suppressDefault = true ∧
       flagEntry (generate_arg_options p) .absent = some Option.none) ∧
    (∀ p : Param, p.isBooleanLike = true → p.kind ≠ .positionalOnly →
       (generate_arg_options p).suppressDefault = false ∧
       flagEntry (generate_arg_options p) .absent =
         some (some Value.pynone)) ∧
    (∀ (ps : List Param) (input : RawInput) (ns : CmdArgs) (p : Param),
       (ps.map Param.name).Nodup → p ∈ ps → p.kind = .keywordOnly →
       p.isBooleanLike = false → input.flagOf p.name = .absent →
       buildNamespace (classify ps) input = some ns →
       ns.lookup p.name = Option.none ∧
       (p.default = Option.none →
         ∃ m, resolveNamespace (classify ps) ns = .error m)) := by
  refine ⟨?_, ?_, ?_⟩
  · intro p hb
    rw [gen_nonbool hb]
    exact ⟨rfl, rfl⟩
  · intro p hb hk
    rw [gen_bool_named hb hk]
    exact ⟨rfl, rfl⟩
  · intro ps input ns p hnd hp hk hb hfi h
    have hpk : p ∈ (classify ps).kwOnly := mem_classify_kwOnly.mpr ⟨hp, hk⟩
    obtain ⟨e, hfe, hl⟩ := buildNamespace_lookup_kwOnly hnd h hpk
    have ho : (generate_arg_options p).action = Option.none := by
      rw [gen_nonbool hb]
    rw [hfi, flagEntry_plain_absent ho] at hfe
    have he : Option.none = e := by simpa using hfe
    have hlnone : ns.lookup p.name = Option.none := by rw [hl, ← he]
    refine ⟨hlnone, fun hdef => ?_⟩
    rcases hpo : resolvePosOnly (classify ps).posOnly ns with err | args
    · exact ⟨err, by rw [resolveNamespace, hpo]⟩
    · have hreq : p ∈ (classify ps).required :=
        mem_classify_required.mpr ⟨hp, hdef⟩
      have hnotpok : p.name ∉ (classify ps).posOrKw.map Param.name := by
        refine name_notin_other_kind hnd hp (fun q hq => ?_)
        have hq' := mem_classify_posOrKw.mp hq
        refine ⟨hq'.1, ?_⟩
        rw [hq'.2, hk]
        intro hc; cases hc
      have hl2 : (resolvePoK (classify ps).posOrKw ns []).1.lookup p.name =
          Option.none := by
        rw [resolvePoK_lookup_other hnotpok, hlnone]
      have hmem : p.name ∈ missingRequired (classify ps).required
          (resolvePoK (classify ps).posOrKw ns []).1 :=
        mem_missingRequired.mpr ⟨p, hreq, rfl, hl2⟩
      rcases hmr : missingRequired (classify ps).required
          (resolvePoK (classify ps).posOrKw ns []).1 with _ | ⟨m, ms⟩
      · rw [hmr] at hmem; cases hmem
      · exact ⟨_, resolveNamespace_missing hpo hmr⟩

/-- C2 witness: the amended claim instantiated at the non-boolean required
keyword-only `c` (unset sentinel, unbound, resolution fails) and at the
boolean-like keyword-only `c` (defaults to `None`). -/
theorem C2_witness :
    ((generate_arg_options paramCreq).suppressDefault = true ∧
      flagEntry (generate_arg_options paramCreq) .absent =
        some Option.none) ∧
    (flagEntry (generate_arg_options paramCbool) .absent =
      some (some Value.pynone)) ∧
    (CmdArgs.lookup ⟨[], []⟩ paramCreq.name = Option.none ∧
      (paramCreq.default = Option.none →
        ∃ m, resolveNamespace (classify sigBC) ⟨[], []⟩ = .error m)) :=
  ⟨C2_defaults.1 paramCreq rfl,
   (C2_defaults.2.1 paramCbool rfl (by decide)).2,
   C2_defaults.2.2 sigBC ⟨[], []⟩ ⟨[], []⟩ paramCreq (by decide) (by decide)
     rfl rfl rfl rfl⟩

/-- A coercion failure fails the whole CLI parse before resolution is
reached: `f(n: int, m, /)` given the non-numeric token `"abc"` for `n` is a
parse failure, not a resolution result. -/
theorem coercionFailure_fails_parse :
    parse_args sigNM ⟨[], ["abc", "hi"]⟩ = Option.none ∧
    Typecast.apply .toInt "abc" = Option.none :=
  ⟨rfl, rfl⟩

/-- C8: for a signature of only positional-only, non-boolean parameters and
a command line of exactly that many tokens, on which every parameter's
coercion accepts its token (a failing coercion fails the whole CLI parse
instead), resolution returns the positional list whose i-th element is the
i-th token after applying the i-th parameter's coercion function (the raw
string when no coercion applies), in token order, together with an empty
keyword mapping; element-wise, each returned value is exactly
`applyCoercion` of the corresponding parameter-token pair. -/
theorem C8_positional_only (ps : List Param) (input : RawInput)
    (vs : List Value) (hnd : (ps.map Param.name).Nodup)
    (hpo : ∀ p ∈ ps, p.kind = .positionalOnly ∧ p.isBooleanLike = false)
    (hlen : input.positionals.length = ps.length)
    (hco : coerceAll ps input.positionals = some vs) :
    parse_args ps input = some (.ok ⟨vs, []⟩) ∧
    List.Forall₂ (fun (pt : Param × String) v =>
      pt.1.applyCoercion pt.2 = some v) (ps.zip input.positionals) vs := by
  refine ⟨?_, coerceAll_forall₂ hco⟩
  have hvslen : vs.length = ps.length := coerceAll_length hco
  have hposOnly : (classify ps).posOnly = ps := by
    rw [classify_eq]
    exact List.filter_eq_self.mpr (fun p hp => by simp [(hpo p hp).1])
  have hpok : (classify ps).posOrKw = [] := by
    rw [classify_eq]
    exact List.filter_eq_nil_iff.mpr (fun p hp => by simp [(hpo p hp).1])
  have hko : (classify ps).kwOnly = [] := by
    rw [classify_eq]
    exact List.filter_eq_nil_iff.mpr (fun p hp => by simp [(hpo p hp).1])
  have hpe : posOnlyEntries ps input.positionals =
      some (List.zipWith (fun p v => (p.name, v)) ps vs, []) := by
    rw [posOnlyEntries_nonbool ps input.positionals vs
      (fun p hp => (hpo p hp).2) (le_of_eq hlen.symm) hco]
    rw [← hlen, List.drop_length]
  have hbn : buildNamespace (classify ps) input =
      some ⟨List.zipWith (fun p v => (p.name, v)) ps vs, []⟩ := by
    rw [buildNamespace, hposOnly, hpok, hko, hpe]
    simp [flagEntries]
  have hmr : missingRequired (classify ps).required
      ⟨List.zipWith (fun p v => (p.name, v)) ps vs, []⟩ = [] := by
    refine missingRequired_nil_iff.mpr (fun p hp => ?_)
    exact dictGet_zipVals_isSome ps vs (mem_classify_required.mp hp).1 hvslen
  have hresolve : resolveNamespace (classify ps)
      ⟨List.zipWith (fun p v => (p.name, v)) ps vs, []⟩ = .ok ⟨vs, []⟩ := by
    rw [resolveNamespace, hposOnly, resolvePosOnly_zipVals ps vs [] hnd hvslen]
    dsimp only
    rw [hpok, hko]
    dsimp only [resolvePoK, resolveKO]
    rw [checkRequired, hmr]
  rw [parse_args, hbn, Option.map_some', hresolve]

/-- C8 witness: `f(n: int, m, /)` with tokens `["42", "hi"]` resolves to the
coerced integer 42 followed by the raw string `"hi"` with no keyword
bindings, each value being the corresponding parameter's coercion applied
to its token. -/
theorem C8_witness :
    parse_args sigNM ⟨[], ["42", "hi"]⟩ =
      some (.ok ⟨[Value.int 42, Value.str "hi"], []⟩) ∧
    List.Forall₂ (fun (pt : Param × String) v =>
      pt.1.applyCoercion pt.2 = some v) (sigNM.zip ["42", "hi"])
      [Value.int 42, Value.str "hi"] :=
  C8_positional_only sigNM ⟨[], ["42", "hi"]⟩ [Value.int 42, Value.str "hi"]
    (by decide) (by decide) rfl rfl

/-- C5: when resolution succeeds, every name in the required set is bound:
the positional list has exactly one slot per positional-only parameter
(and each required positional-only parameter is in the positional-only
bucket, hence owns such a slot), and every required parameter of the other
two kinds appears as a key in the returned keyword mapping. -/
theorem C5_required_bound (ps : List Param) (input : RawInput) (r : Resolved)
    (hnd : (ps.map Param.name).Nodup)
    (h : parse_args ps input = some (.ok r)) :
    r.args.length = (classify ps).posOnly.length ∧
    ∀ p ∈ (classify ps).required,
      (p.kind = .positionalOnly → p ∈ (classify ps).posOnly) ∧
      (p.kind ≠ .positionalOnly → ∃ v, dictGet r.kwargs p.name = some v) := by
  rw [parse_args] at h
  obtain ⟨ns, hbn, hres⟩ := Option.map_eq_some'.mp h
  obtain ⟨args, hpo, hmr, hr⟩ := resolveNamespace_ok hres
  constructor
  · rw [hr]
    exact resolvePosOnly_length hpo
  · intro p hp
    obtain ⟨hpps, hpdef⟩ := mem_classify_required.mp hp
    have hsome :
        ((resolvePoK (classify ps).posOrKw ns []).1.lookup p.name).isSome :=
      missingRequired_nil_iff.mp hmr p hp
    refine ⟨fun hk => mem_classify_posOnly.mpr ⟨hpps, hk⟩, fun hk => ?_⟩
    cases hkind : p.kind with
    | positionalOnly => exact absurd hkind hk
    | positionalOrKeyword =>
      have hpk : p ∈ (classify ps).posOrKw :=
        mem_classify_posOrKw.mpr ⟨hpps, hkind⟩
      have hndb : ((classify ps).posOrKw.map Param.name).Nodup := by
        rw [classify_eq]; exact bucket_names_nodup hnd _
      obtain ⟨v, hv⟩ :=
        Option.isSome_iff_exists.mp (resolvePoK_complete hndb hpk hsome)
      refine ⟨v, ?_⟩
      rw [hr]
      exact resolveKO_preserved hv
    | keywordOnly =>
      have hpk : p ∈ (classify ps).kwOnly :=
        mem_classify_kwOnly.mpr ⟨hpps, hkind⟩
      obtain ⟨v, hv⟩ :=
        Option.isSome_iff_exists.mp (resolveKO_complete hpk hsome)
      refine ⟨v, ?_⟩
      rw [hr]
      exact hv

/-- C5 witness: the successful resolution of `f(a, /, b=1, *, c)` with all
of `a`, `b`, `c` supplied has one positional slot for `a` and keyword
entries for `b` and `c`. -/
theorem C5_witness :
    (⟨[Value.str "t"], [("b", Value.str "9"), ("c", Value.str "z")]⟩ :
        Resolved).args.length = (classify sigABC).posOnly.length ∧
    ∀ p ∈ (classify sigABC).required,
      (p.kind = .positionalOnly → p ∈ (classify sigABC).posOnly) ∧
      (p.kind ≠ .positionalOnly →
        ∃ v, dictGet (⟨[Value.str "t"],
            [("b", Value.str "9"), ("c", Value.str "z")]⟩ :
              Resolved).kwargs p.name = some v) :=
  C5_required_bound sigABC ⟨[("b", .value "9"), ("c", .value "z")], ["t"]⟩
    ⟨[Value.str "t"], [("b", Value.str "9"), ("c", Value.str "z")]⟩
    (by decide) rfl

/-- C10: a boolean-like positional-or-keyword or keyword-only parameter
whose toggle is given in neither form has the namespace entry `None`, is
bound as `None` under its name in the keyword mapping built by the binding
passes, and is never reported as a missing required argument even when it
is in the required set. -/
theorem C10_none_binding (ps : List Param) (input : RawInput) (ns : CmdArgs)
    (p : Param) (hnd : (ps.map Param.name).Nodup) (hp : p ∈ ps)
    (hk : p.kind ≠ .positionalOnly) (hb : p.isBooleanLike = true)
    (hfi : input.flagOf p.name = .absent)
    (h : buildNamespace (classify ps) input = some ns) :
    ns.lookup p.name = some Value.pynone ∧
    dictGet (resolveKO (classify ps).kwOnly
        (resolvePoK (classify ps).posOrKw ns []).1
        (resolvePoK (classify ps).posOrKw ns []).2) p.name =
      some Value.pynone ∧
    p.name ∉ missingRequired (classify ps).required
      (resolvePoK (classify ps).posOrKw ns []).1 := by
  have hfa : flagEntry (generate_arg_options p) .absent =
      some (some Value.pynone) := by
    rw [gen_bool_named hb hk]
    rfl
  have hlook : ns.lookup p.name = some Value.pynone := by
    cases hkind : p.kind with
    | positionalOnly => exact absurd hkind hk
    | positionalOrKeyword =>
      obtain ⟨e, hfe, hl⟩ := buildNamespace_lookup_posOrKw hnd h
        (mem_classify_posOrKw.mpr ⟨hp, hkind⟩)
      rw [hfi, hfa] at hfe
      have he : some Value.pynone = e := by simpa using hfe
      rw [hl, ← he]
    | keywordOnly =>
      obtain ⟨e, hfe, hl⟩ := buildNamespace_lookup_kwOnly hnd h
        (mem_classify_kwOnly.mpr ⟨hp, hkind⟩)
      rw [hfi, hfa] at hfe
      have he : some Value.pynone = e := by simpa using hfe
      rw [hl, ← he]
  refine ⟨hlook, ?_, ?_⟩
  · cases hkind : p.kind with
    | positionalOnly => exact absurd hkind hk
    | positionalOrKeyword =>
      have hpk : p ∈ (classify ps).posOrKw :=
        mem_classify_posOrKw.mpr ⟨hp, hkind⟩
      have hndb : ((classify ps).posOrKw.map Param.name).Nodup := by
        rw [classify_eq]; exact bucket_names_nodup hnd _
      exact resolveKO_preserved (resolvePoK_binds hndb hpk hlook rfl)
    | keywordOnly =>
      have hpk : p ∈ (classify ps).kwOnly :=
        mem_classify_kwOnly.mpr ⟨hp, hkind⟩
      have hndb : ((classify ps).kwOnly.map Param.name).Nodup := by
        rw [classify_eq]; exact bucket_names_nodup hnd _
      have hl2 : (resolvePoK (classify ps).posOrKw ns []).1.lookup p.name =
          some Value.pynone := resolvePoK_lookup_preserved hlook
      have hkwnone :
          dictGet (resolvePoK (classify ps).posOrKw ns []).2 p.name =
            Option.none := by
        obtain ⟨_, e2, _, h2, _, s2⟩ := resolvePoK_ext (classify ps).posOrKw ns []
        rw [h2]
        refine dictGet_eq_none (fun hm => ?_)
        have hnotpok : p.name ∉ (classify ps).posOrKw.map Param.name := by
          refine name_notin_other_kind hnd hp (fun q hq => ?_)
          have hq' := mem_classify_posOrKw.mp hq
          refine ⟨hq'.1, ?_⟩
          rw [hq'.2, hkind]
          intro hc; cases hc
        exact hnotpok (s2 (by simpa using hm))
      exact resolveKO_binds hndb hpk hl2 hkwnone
  · intro hmem
    obtain ⟨q, hq, hqname, hqnone⟩ := mem_missingRequired.mp hmem
    rw [hqname, resolvePoK_lookup_preserved hlook] at hqnone
    exact Option.noConfusion hqnone

/-- C10 witness: for `f(*, c: bool)` with the toggle omitted, `c` is present
as `None` in the namespace, bound as `None` in the keyword mapping, and is
not in the missing-required list although `c` is required. -/
theorem C10_witness :
    CmdArgs.lookup ⟨[("c", Value.pynone)], []⟩ paramCbool.name =
      some Value.pynone ∧
    dictGet (resolveKO (classify sigCbool).kwOnly
        (resolvePoK (classify sigCbool).posOrKw
          ⟨[("c", Value.pynone)], []⟩ []).1
        (resolvePoK (classify sigCbool).posOrKw
          ⟨[("c", Value.pynone)], []⟩ []).2) paramCbool.name =
      some Value.pynone ∧
    paramCbool.name ∉ missingRequired (classify sigCbool).required
      (resolvePoK (classify sigCbool).posOrKw
        ⟨[("c", Value.pynone)], []⟩ []).1 :=
  C10_none_binding sigCbool ⟨[], []⟩ ⟨[("c", Value.pynone)], []⟩ paramCbool
    (by decide) (by decide) (by decide) rfl rfl rfl

end Sourcepy
